import Mathlib

/- Shallow embedding of two source files of the repository:
   module/zcommon/zfs_fletcher.c (the Fletcher checksum kernels) and
   hktest/draid.c (the declustered RAID permutation generator and the
   resilver and decluster evaluators).  Machine integers are modelled as
   Nat with explicit reduction modulo 2 ^ 64 where the C code uses
   uint64_t arithmetic; buffers are lists of machine words; the mrand48
   pseudo random stream is an explicit function from a stream position to
   an integer, with the position threaded through every function that
   draws from it.  C asserts are modelled as error returns. -/

/-! Fletcher checksums, from module/zcommon/zfs_fletcher.c. -/

/-- Loop body of fletcher_4_scalar: a += ip[0]; b += a; c += b; d += c,
with every addition performed on uint64_t, hence modulo 2 ^ 64.  The state
tuple is (a, b, c, d), the four zc_word accumulators. -/
def f4step (s : ℕ × ℕ × ℕ × ℕ) (w : ℕ) : ℕ × ℕ × ℕ × ℕ :=
  let a := (s.1 + w) % 2 ^ 64
  let b := (s.2.1 + a) % 2 ^ 64
  let c := (s.2.2.1 + b) % 2 ^ 64
  let d := (s.2.2.2 + c) % 2 ^ 64
  (a, b, c, d)

/-- Model of fletcher_4_scalar: loads (a, b, c, d) from the caller supplied
zio_cksum_t, runs the word loop over the buffer (given as its list of
32-bit words), and stores the four accumulators back. -/
def fletcher_4_scalar (buf : List ℕ) (zcp : ℕ × ℕ × ℕ × ℕ) : ℕ × ℕ × ℕ × ℕ :=
  buf.foldl f4step zcp

/-- Model of fletcher_4_scalar_init: ZIO_SET_CHECKSUM(zcp, 0, 0, 0, 0). -/
def fletcher_4_scalar_init : ℕ × ℕ × ℕ × ℕ := (0, 0, 0, 0)

/-- Byte i of a machine word (bits 8 i .. 8 i + 7). -/
def byteAt (w i : ℕ) : ℕ := w / 2 ^ (8 * i) % 2 ^ 8

/-- Model of the 32-bit byte reverse BSWAP_32 (high bits above 2 ^ 32 of the
model word are ignored, as they are absent from a uint32_t). -/
def bswap32 (w : ℕ) : ℕ := ((List.range 4).map (fun i => byteAt w i * 2 ^ (8 * (3 - i)))).sum

/-- Model of the 64-bit byte reverse BSWAP_64. -/
def bswap64 (w : ℕ) : ℕ := ((List.range 8).map (fun i => byteAt w i * 2 ^ (8 * (7 - i)))).sum

/-- Model of fletcher_4_scalar_byteswap: identical to fletcher_4_scalar
except that each 32-bit word is byte reversed before being accumulated. -/
def fletcher_4_scalar_byteswap (buf : List ℕ) (zcp : ℕ × ℕ × ℕ × ℕ) : ℕ × ℕ × ℕ × ℕ :=
  buf.foldl (fun s w => f4step s (bswap32 w)) zcp

/-- Model of fletcher_4_incremental_native, which invokes the scalar kernel
directly on the caller preserved state. -/
def fletcher_4_incremental_native (buf : List ℕ) (zcp : ℕ × ℕ × ℕ × ℕ) : ℕ × ℕ × ℕ × ℕ :=
  fletcher_4_scalar buf zcp

/-- Model of fletcher_4_incremental_byteswap, which invokes the scalar
byteswap kernel directly on the caller preserved state. -/
def fletcher_4_incremental_byteswap (buf : List ℕ) (zcp : ℕ × ℕ × ℕ × ℕ) : ℕ × ℕ × ℕ × ℕ :=
  fletcher_4_scalar_byteswap buf zcp

/-- Loop body of fletcher_2_native on one 16-byte pair:
a0 += ip[0]; a1 += ip[1]; b0 += a0; b1 += a1, all on uint64_t.
The state tuple is (a0, a1, b0, b1), the output order of
ZIO_SET_CHECKSUM(zcp, a0, a1, b0, b1). -/
def f2step (s : ℕ × ℕ × ℕ × ℕ) (w0 w1 : ℕ) : ℕ × ℕ × ℕ × ℕ :=
  let a0 := (s.1 + w0) % 2 ^ 64
  let a1 := (s.2.1 + w1) % 2 ^ 64
  let b0 := (s.2.2.1 + a0) % 2 ^ 64
  let b1 := (s.2.2.2 + a1) % 2 ^ 64
  (a0, a1, b0, b1)

/-- Word loop of fletcher_2_native: the buffer (as its list of 64-bit
words) is consumed two words per iteration.  The pointer condition
ip < ipend together with the documented 16-byte size multiple means the
loop stops exactly when fewer than two words remain. -/
def fletcher_2_go : List ℕ → ℕ × ℕ × ℕ × ℕ → ℕ × ℕ × ℕ × ℕ
  | w0 :: w1 :: rest, s => fletcher_2_go rest (f2step s w0 w1)
  | _, s => s

/-- Model of fletcher_2_native: accumulators start at zero and the final
(a0, a1, b0, b1) is stored to the checksum. -/
def fletcher_2_native (buf : List ℕ) : ℕ × ℕ × ℕ × ℕ := fletcher_2_go buf (0, 0, 0, 0)

/-- Word loop of fletcher_2_byteswap: as fletcher_2_go but each word passes
through BSWAP_64 before being accumulated. -/
def fletcher_2_swapgo : List ℕ → ℕ × ℕ × ℕ × ℕ → ℕ × ℕ × ℕ × ℕ
  | w0 :: w1 :: rest, s => fletcher_2_swapgo rest (f2step s (bswap64 w0) (bswap64 w1))
  | _, s => s

/-- Model of fletcher_2_byteswap. -/
def fletcher_2_byteswap (buf : List ℕ) : ℕ × ℕ × ℕ × ℕ := fletcher_2_swapgo buf (0, 0, 0, 0)

/-! Declustered RAID permutation generator, from hktest/draid.c. -/

/-- Model of map_t.  Rows are lists of device numbers; groupsz is the list
of per group sizes; broken is the broken device array, of which the first
nbroken entries are live. -/
structure map_t where
  ndevs : ℕ
  ngroups : ℕ
  groupsz : List ℕ
  nspares : ℕ
  nrows : ℕ
  rows : List (List ℕ)
  nbroken : ℕ
  broken : List ℕ
deriving DecidableEq, Repr

/-- Model of pair_t: a device value tagged with its random sort order. -/
structure pair_t where
  value : ℕ
  order : ℤ
deriving DecidableEq, Repr

/-- One comparison of the permute_devs exchange sort: when both indices are
in range (they always are at the call sites, since i and j run below ndevs
and the list has ndevs entries) and the order tags are out of order, the
two entries are exchanged. -/
def cmpSwap (t : List pair_t) (i j : ℕ) : List pair_t :=
  if i < t.length ∧ j < t.length then
    if (t.getD i ⟨0, 0⟩).order > (t.getD j ⟨0, 0⟩).order then
      (t.set i (t.getD j ⟨0, 0⟩)).set j (t.getD i ⟨0, 0⟩)
    else t
  else t

/-- The nested sorting loops of permute_devs: for i below ndevs, for j from
i + 1 below ndevs, exchange tmp[i] and tmp[j] when tmp[i].order is greater
than tmp[j].order. -/
def sortPairs (t : List pair_t) (ndevs : ℕ) : List pair_t :=
  (List.range ndevs).foldl
    (fun t1 i => (((List.range ndevs).drop (i + 1)).foldl (fun t2 j => cmpSwap t2 i j) t1)) t

/-- Model of permute_devs.  The function takes the mrand48 stream g and the
current stream position and returns the permuted row together with the new
stream position.  When ndevs equals two the two slots are swapped without
drawing; otherwise each slot is tagged with a fresh draw, the tagged pairs
are sorted by tag with the exchange sort above, and the values of the
sorted pairs form the output row. -/
def permute_devs (g : ℕ → ℤ) (ndevs : ℕ) (inp : List ℕ) (pos : ℕ) : List ℕ × ℕ :=
  if ndevs = 2 then
    ([inp.getD 1 0, inp.getD 0 0], pos)
  else
    let tmp := (List.range ndevs).map (fun i => pair_t.mk (inp.getD i 0) (g (pos + i)))
    ((sortPairs tmp ndevs).map pair_t.value, pos + ndevs)

/-- Row generation loop of new_map for the rows after row zero: each row is
permute_devs of the previous row, with the stream position threaded. -/
def gen_rows (g : ℕ → ℤ) (ndevs : ℕ) : List ℕ → ℕ → ℕ → List (List ℕ) × ℕ
  | _, pos, 0 => ([], pos)
  | prev, pos, k + 1 =>
    let pr := permute_devs g ndevs prev pos
    let rest := gen_rows g ndevs pr.1 pr.2 k
    (pr.1 :: rest.1, rest.2)

/-- Row table of new_map: row 0 is the identity permutation 0, 1, ...,
ndevs - 1, and each later row is permute_devs of its predecessor. -/
def new_rows (g : ℕ → ℤ) (ndevs nrows pos : ℕ) : List (List ℕ) × ℕ :=
  if nrows = 0 then ([], pos)
  else
    (List.range ndevs :: (gen_rows g ndevs (List.range ndevs) pos (nrows - 1)).1,
     (gen_rows g ndevs (List.range ndevs) pos (nrows - 1)).2)

/-- Model of new_map.  groupsz is (ndevs - nspares) / ngroups for every
group; the broken array is allocated with nspares entries (its malloc
contents are unspecified in C and modelled as zeros) and nbroken is zero.
The pair also returns the mrand48 stream position after construction. -/
def new_map (g : ℕ → ℤ) (ndevs ngroups nspares nrows pos : ℕ) : map_t × ℕ :=
  ({ ndevs := ndevs, ngroups := ngroups,
     groupsz := List.replicate ngroups ((ndevs - nspares) / ngroups),
     nspares := nspares, nrows := nrows,
     rows := (new_rows g ndevs nrows pos).1,
     nbroken := 0, broken := List.replicate nspares 0 }, (new_rows g ndevs nrows pos).2)

/-- Model of develop_map.  A fresh map of nrows * ndevs rows is built with
new_map (consuming random draws), and then the nested loops assign
dmap->rows[base * ndevs + add][j] = (bmap->rows[base][j] + add) % ndevs for
every base below bmap.nrows, every add below bmap.ndevs and every j below
bmap.ndevs; those index ranges cover every entry of the freshly allocated
nrows * ndevs by ndevs row table, so the assignments are modelled by
building the developed table directly. -/
def develop_map (g : ℕ → ℤ) (bmap : map_t) (pos : ℕ) : map_t × ℕ :=
  let fresh := new_map g bmap.ndevs bmap.ngroups bmap.nspares (bmap.nrows * bmap.ndevs) pos
  ({ fresh.1 with rows :=
      ((List.range bmap.nrows).map (fun base =>
        (List.range bmap.ndevs).map (fun add =>
          (List.range bmap.ndevs).map (fun j =>
            ((bmap.rows.getD base []).getD j 0 + add) % bmap.ndevs)))).flatten },
   fresh.2)

/-- Model of is_broken: membership of the device among the first nbroken
entries of the broken array. -/
def is_broken (m : map_t) (dev : ℕ) : Bool := (m.broken.take m.nbroken).contains dev

/-- Error kind of the evaluators: spareExhausted models the two asserts
spareIndex < ndevs in eval_resilver firing, and badHow models the
assert(0) in the default branch of the eval_decluster switch.  A C assert
aborts the process, so in this model an assert is an error return that the
callers propagate. -/
inductive draidErr where
  | spareExhausted
  | badHow
deriving DecidableEq, Repr

/-- Spare slot search of eval_resilver: assert(spareIndex < ndevs), then
advance the cursor while the device in the spare slot is broken, asserting
the bound again after each advance; the first healthy spare slot is
returned. -/
def skipBrokenAux (m : map_t) (row : List ℕ) : ℕ → ℕ → Except draidErr ℕ
  | 0, _ => .error .spareExhausted
  | fuel + 1, s =>
    if is_broken m (row.getD s 0) then skipBrokenAux m row fuel (s + 1) else .ok s

/-- Spare slot search of eval_resilver at cursor s: the bound check
s < ndevs (the assert) is carried by the fuel ndevs - s, which is zero
exactly when the assert would fire, both on entry and after each advance
past a broken spare. -/
def skipBroken (m : map_t) (row : List ℕ) (s : ℕ) : Except draidErr ℕ :=
  skipBrokenAux m row (m.ndevs - s) s

/-- Group repair loop of eval_resilver, entered when the group contains a
broken slot.  The spare cursor spareIndex starts at ndevs - nspares; each
healthy slot counts one read for its device, each broken slot counts one
write for the device in the next healthy spare slot and advances the
cursor past it. -/
def resilver_group (m : map_t) (row : List ℕ) (index groupsz : ℕ) (reads writes : List ℕ) :
    Except draidErr (List ℕ × List ℕ) := do
  let st ← (List.range groupsz).foldlM
    (fun (st : ℕ × List ℕ × List ℕ) k => do
      let dev := row.getD (index + k) 0
      if is_broken m dev then do
        let s ← skipBroken m row st.1
        let wdev := row.getD s 0
        pure (s + 1, st.2.1, st.2.2.set wdev (st.2.2.getD wdev 0 + 1))
      else
        pure (st.1, st.2.1.set dev (st.2.1.getD dev 0 + 1), st.2.2))
    (m.ndevs - m.nspares, reads, writes)
  pure (st.2.1, st.2.2)

/-- Row loop body of eval_resilver: walk the groups in slot order, tracking
the starting slot index of the current group; a group with no broken slot
is skipped, a group with a broken slot is repaired. -/
def resilver_row (m : map_t) (row : List ℕ) (reads writes : List ℕ) :
    Except draidErr (List ℕ × List ℕ) := do
  let st ← (List.range m.ngroups).foldlM
    (fun (st : ℕ × List ℕ × List ℕ) j => do
      let groupsz := m.groupsz.getD j 0
      if (List.range groupsz).any (fun k => is_broken m (row.getD (st.1 + k) 0)) then do
        let rw ← resilver_group m row st.1 groupsz st.2.1 st.2.2
        pure (st.1 + groupsz, rw.1, rw.2)
      else
        pure (st.1 + groupsz, st.2.1, st.2.2))
    (0, reads, writes)
  pure (st.2.1, st.2.2)

/-- Read and write tallies of eval_resilver over all rows, starting from
the zero filled arrays. -/
def resilver_counts (m : map_t) : Except draidErr (List ℕ × List ℕ) :=
  (List.range m.nrows).foldlM
    (fun (st : List ℕ × List ℕ) i => resilver_row m (m.rows.getD i []) st.1 st.2)
    (List.replicate m.ndevs 0, List.replicate m.ndevs 0)

/-- Model of eval_resilver: the returned value is the largest
reads[i] + writes[i] over all devices.  (The C function also computes
max_read and max_write, which do not feed the return value.)  The map is
never stored to, so the model is a pure function of the map. -/
def eval_resilver (m : map_t) : Except draidErr ℕ := do
  let rw ← resilver_counts m
  pure ((List.range m.ndevs).foldl (fun mx i => max mx (rw.1.getD i 0 + rw.2.getD i 0)) 0)

/-- Shorthand of eval_decluster body: evaluate the resilver cost of the map
with nbroken set to faults and the given broken array. -/
def resilver_at (m : map_t) (faults : ℕ) (broken : List ℕ) : Except draidErr ℕ :=
  eval_resilver { m with nbroken := faults, broken := broken }

/-- Inner failure loop of eval_decluster for faults at least two, counting
down the remaining values of f2: with c values remaining the next f2 is
ndevs - c.  Each iteration stores f2 into broken[1], evaluates, and
accumulates ios into the running sum, sum of squares, maximum and
iteration count. -/
def decluster_inner (m : map_t) (faults : ℕ) :
    ℕ → List ℕ × ℕ × ℕ × ℕ × ℕ → Except draidErr (List ℕ × ℕ × ℕ × ℕ × ℕ)
  | 0, st => .ok st
  | c + 1, (br, sum, sumsq, mx, it) =>
    let br2 := br.set 1 (m.ndevs - (c + 1))
    match resilver_at m faults br2 with
    | .error e => .error e
    | .ok ios => decluster_inner m faults c (br2, sum + ios, sumsq + ios * ios, max mx ios, it + 1)

/-- Outer failure loop of eval_decluster over f1 from 0 below ndevs (the
argument counts the iterations already performed, so the n-th step handles
f1 = n).  f1 is stored into broken[0]; with faults below two a single
evaluation accumulates, otherwise the inner loop runs f2 from f1 + 1 below
ndevs. -/
def decluster_outer (m : map_t) (faults : ℕ) : ℕ → Except draidErr (List ℕ × ℕ × ℕ × ℕ × ℕ)
  | 0 => .ok (m.broken, 0, 0, 0, 0)
  | n + 1 =>
    match decluster_outer m faults n with
    | .error e => .error e
    | .ok (br, sum, sumsq, mx, it) =>
      let br1 := br.set 0 n
      if faults < 2 then
        match resilver_at m faults br1 with
        | .error e => .error e
        | .ok ios => .ok (br1, sum + ios, sumsq + ios * ios, max mx ios, it + 1)
      else
        decluster_inner m faults (m.ndevs - (n + 1)) (br1, sum, sumsq, mx, it)

/-- Failure injection part of eval_decluster: map->nbroken is set to faults
for the duration of the loops and reset to zero before returning; the
final broken array keeps whatever the loops last stored.  Returns the
updated map together with (sum, sumsq, max_ios, iter_num). -/
def eval_decluster_core (m : map_t) (faults : ℕ) :
    Except draidErr (map_t × ℕ × ℕ × ℕ × ℕ) :=
  match decluster_outer m faults m.ndevs with
  | .error e => .error e
  | .ok (br, sum, sumsq, mx, it) =>
    .ok ({ m with nbroken := 0, broken := br }, sum, sumsq, mx, it)

/-- Model of eval_decluster.  After the failure loops, the switch on how
selects max_ios (EVAL_WORST = 0), sum / iter_num (EVAL_MEAN = 1) or
sqrt(sumsq / iter_num) (EVAL_RMS = 2), computed on double and modelled on
the reals; any other how hits assert(0), modelled as the badHow error.
The returned value is (val / nrows) * ngroups. -/
noncomputable def eval_decluster (m : map_t) (how faults : ℕ) :
    Except draidErr (map_t × ℝ) :=
  match eval_decluster_core m faults with
  | .error e => .error e
  | .ok (m1, sum, sumsq, mx, it) =>
    if how = 0 then .ok (m1, ((mx : ℝ) / (m.nrows : ℝ)) * (m.ngroups : ℝ))
    else if how = 1 then .ok (m1, (((sum : ℝ) / (it : ℝ)) / (m.nrows : ℝ)) * (m.ngroups : ℝ))
    else if how = 2 then
      .ok (m1, ((Real.sqrt ((sumsq : ℝ) / (it : ℝ))) / (m.nrows : ℝ)) * (m.ngroups : ℝ))
    else .error .badHow

/-! Concrete inputs used by witnesses and counterexamples. -/

/-- Constant zero mrand48 stream, used for concrete evaluations. -/
def g0 : ℕ → ℤ := fun _ => 0

/-- Concrete base map with three devices, one group, no spares and one row,
exactly as new_map g0 3 1 0 1 would build it. -/
def b0 : map_t :=
  { ndevs := 3, ngroups := 1, groupsz := [3], nspares := 0, nrows := 1,
    rows := [[0, 1, 2]], nbroken := 0, broken := [] }

/-- Concrete map with two devices, one group of size one, one spare and one
row, exactly as new_map g0 2 1 1 1 would build it. -/
def mw : map_t :=
  { ndevs := 2, ngroups := 1, groupsz := [1], nspares := 1, nrows := 1,
    rows := [[0, 1]], nbroken := 0, broken := [0] }

/-- Concrete map with four devices, two groups of size one, two spares and
one identity row, with devices 0 and 1 broken: both groups contain a
failure, so each group repair restarts the spare cursor. -/
def m3 : map_t :=
  { ndevs := 4, ngroups := 2, groupsz := [1, 1], nspares := 2, nrows := 1,
    rows := [[0, 1, 2, 3]], nbroken := 2, broken := [0, 1] }

/-! Theorems for the Fletcher claims. -/

/-- Helper: running the fletcher-2 native word loop on a buffer whose words
have been byte reversed equals running the byteswap word loop on the
original buffer, from any accumulator state. -/
theorem fletcher_2_go_map_bswap :
    ∀ (buf : List ℕ) (s : ℕ × ℕ × ℕ × ℕ),
      fletcher_2_go (buf.map bswap64) s = fletcher_2_swapgo buf s
  | [], _ => rfl
  | [_], _ => rfl
  | w0 :: w1 :: rest, s => fletcher_2_go_map_bswap rest (f2step s (bswap64 w0) (bswap64 w1))

/-- C2: the Fletcher-4 scalar kernel consumes the buffer word by word,
performing a += w; b += a; c += b; d += c modulo 2 ^ 64 for each word,
starting from the caller supplied state; on the words [1, 2, 3, 4] from the
zero state it produces a = 10, b = 20, c = 35, d = 56. -/
theorem fletcher_4_scalar_spec :
    (∀ (s : ℕ × ℕ × ℕ × ℕ) (w : ℕ) (buf : List ℕ),
      fletcher_4_scalar (w :: buf) s =
        fletcher_4_scalar buf
          ((s.1 + w) % 2 ^ 64,
           (s.2.1 + (s.1 + w) % 2 ^ 64) % 2 ^ 64,
           (s.2.2.1 + (s.2.1 + (s.1 + w) % 2 ^ 64) % 2 ^ 64) % 2 ^ 64,
           (s.2.2.2 + (s.2.2.1 + (s.2.1 + (s.1 + w) % 2 ^ 64) % 2 ^ 64) % 2 ^ 64) % 2 ^ 64)) ∧
    fletcher_4_scalar [1, 2, 3, 4] (0, 0, 0, 0) = (10, 20, 35, 56) := by
  constructor
  · intro s w buf
    rfl
  · decide

/-- C7: computing the Fletcher-4 checksum incrementally over a split of the
buffer, through the incremental entry point (which always runs the scalar
kernel on the preserved state), gives the same fingerprint as one scalar
pass over the whole buffer from the freshly initialised state. -/
theorem fletcher_4_incremental_split (buf1 buf2 : List ℕ) :
    fletcher_4_incremental_native buf2
        (fletcher_4_incremental_native buf1 fletcher_4_scalar_init) =
      fletcher_4_scalar (buf1 ++ buf2) fletcher_4_scalar_init := by
  simp [fletcher_4_incremental_native, fletcher_4_scalar, List.foldl_append]

/-- C8: for each word size, the native kernel applied to the word-wise byte
reversed buffer computes exactly the byteswap kernel of the original
buffer: fletcher_2_native over BSWAP_64 of each word equals
fletcher_2_byteswap, and fletcher_4_scalar over BSWAP_32 of each word
equals fletcher_4_scalar_byteswap from any initial state. -/
theorem fletcher_byteswap_reversal :
    (∀ buf : List ℕ, fletcher_2_native (buf.map bswap64) = fletcher_2_byteswap buf) ∧
    (∀ (buf : List ℕ) (s : ℕ × ℕ × ℕ × ℕ),
      fletcher_4_scalar (buf.map bswap32) s = fletcher_4_scalar_byteswap buf s) := by
  constructor
  · intro buf
    exact fletcher_2_go_map_bswap buf (0, 0, 0, 0)
  · intro buf s
    simp [fletcher_4_scalar, fletcher_4_scalar_byteswap, List.foldl_map]

/-! Permutation helper lemmas for the draid claims. -/

/-- Helper: moving the element at position m of as to the front while
writing a into position m permutes a :: as. -/
theorem perm_getD_cons {α : Type} (d : α) :
    ∀ (as : List α) (m : ℕ) (a : α), m < as.length →
      (as.getD m d :: as.set m a).Perm (a :: as)
  | b :: bs, 0, a, _ => by
      simpa using List.Perm.swap a b bs
  | b :: bs, k + 1, a, h => by
      have ih := perm_getD_cons d bs k a (by simpa using h)
      have h1 : (bs.getD k d :: b :: bs.set k a).Perm (b :: bs.getD k d :: bs.set k a) :=
        List.Perm.swap b (bs.getD k d) (bs.set k a)
      have h2 : (b :: bs.getD k d :: bs.set k a).Perm (b :: a :: bs) := ih.cons b
      have h3 : (b :: a :: bs).Perm (a :: b :: bs) := List.Perm.swap a b bs
      simpa using (h1.trans h2).trans h3

/-- Helper: exchanging the entries at two positions of a list permutes the
list. -/
theorem set_set_perm {α : Type} (d : α) :
    ∀ (l : List α) (i j : ℕ), i < l.length → j < l.length →
      ((l.set i (l.getD j d)).set j (l.getD i d)).Perm l
  | [], _, _, hi, _ => absurd hi (by simp)
  | _ :: _, 0, 0, _, _ => by simp
  | a :: as, 0, m + 1, _, hj => by
      simpa using perm_getD_cons d as m a (by simpa using hj)
  | a :: as, m + 1, 0, hi, _ => by
      simpa using perm_getD_cons d as m a (by simpa using hi)
  | a :: as, i + 1, j + 1, hi, hj => by
      simpa using (set_set_perm d as i j (by simpa using hi) (by simpa using hj)).cons a

/-- Helper: a fold whose step always permutes its list state permutes the
initial state. -/
theorem foldl_perm {α β : Type} (f : List α → β → List α) (h : ∀ t b, (f t b).Perm t) :
    ∀ (bs : List β) (t : List α), (bs.foldl f t).Perm t
  | [], t => List.Perm.refl t
  | b :: bs, t => (foldl_perm f h bs (f t b)).trans (h t b)

/-- Helper: one comparison step of the exchange sort permutes the list. -/
theorem cmpSwap_perm (t : List pair_t) (i j : ℕ) : (cmpSwap t i j).Perm t := by
  rw [cmpSwap]
  by_cases hb : i < t.length ∧ j < t.length
  · rw [if_pos hb]
    by_cases ho : (t.getD i ⟨0, 0⟩).order > (t.getD j ⟨0, 0⟩).order
    · rw [if_pos ho]
      exact set_set_perm ⟨0, 0⟩ t i j hb.1 hb.2
    · rw [if_neg ho]
  · rw [if_neg hb]

/-- Helper: the exchange sort of permute_devs permutes its input. -/
theorem sortPairs_perm (t : List pair_t) (ndevs : ℕ) : (sortPairs t ndevs).Perm t :=
  foldl_perm _
    (fun t1 i => foldl_perm (fun t2 j => cmpSwap t2 i j)
      (fun t2 j => cmpSwap_perm t2 i j) (((List.range ndevs).drop (i + 1))) t1)
    (List.range ndevs) t

/-- Helper: reading every position of a list back in order rebuilds the
list. -/
theorem map_range_getD {α : Type} (d : α) :
    ∀ l : List α, (List.range l.length).map (fun i => l.getD i d) = l
  | [] => rfl
  | a :: as => by
      have h1 : (List.range (a :: as).length).map (fun i => (a :: as).getD i d)
          = a :: (List.range as.length).map (fun i => as.getD i d) := by
        rw [List.length_cons, List.range_succ_eq_map, List.map_cons, List.map_map]
        rfl
      rw [h1, map_range_getD d as]

/-- Helper: permute_devs returns a permutation of its input row whenever
the row has ndevs entries. -/
theorem permute_devs_perm (g : ℕ → ℤ) (ndevs : ℕ) (inp : List ℕ) (pos : ℕ)
    (h : inp.length = ndevs) : ((permute_devs g ndevs inp pos).1).Perm inp := by
  rw [permute_devs]
  by_cases h2 : ndevs = 2
  · rw [if_pos h2]
    subst h2
    match inp, h with
    | [x, y], _ => simpa using List.Perm.swap x y []
  · rw [if_neg h2]
    have hs := (sortPairs_perm
      ((List.range ndevs).map (fun i => pair_t.mk (inp.getD i 0) (g (pos + i)))) ndevs).map
      pair_t.value
    have hv : ((List.range ndevs).map
        (fun i => pair_t.mk (inp.getD i 0) (g (pos + i)))).map pair_t.value = inp := by
      rw [List.map_map]
      have h3 : (pair_t.value ∘ fun i => pair_t.mk (inp.getD i 0) (g (pos + i)))
          = fun i => inp.getD i 0 := rfl
      rw [h3, ← h, map_range_getD]
    rw [hv] at hs
    exact hs

/-- Helper: every row generated by gen_rows permutes the seed row, and each
generated row is permute_devs of its predecessor at some stream
position. -/
theorem gen_rows_spec (g : ℕ → ℤ) (ndevs : ℕ) :
    ∀ (k : ℕ) (prev : List ℕ) (pos : ℕ), prev.length = ndevs →
      (gen_rows g ndevs prev pos k).1.length = k ∧
      (∀ r ∈ (gen_rows g ndevs prev pos k).1, r.Perm prev) ∧
      (∀ j, j < k → ∃ p, (gen_rows g ndevs prev pos k).1.getD j [] =
          (permute_devs g ndevs ((prev :: (gen_rows g ndevs prev pos k).1).getD j []) p).1) := by
  intro k
  induction k with
  | zero =>
      intro prev pos _
      refine ⟨rfl, ?_, ?_⟩
      · intro r hr
        simp [gen_rows] at hr
      · intro j hj
        omega
  | succ k ih =>
      intro prev pos h
      have hperm := permute_devs_perm g ndevs prev pos h
      have hlen : (permute_devs g ndevs prev pos).1.length = ndevs := by
        rw [hperm.length_eq, h]
      obtain ⟨ihlen, ihperm, ihchain⟩ :=
        ih (permute_devs g ndevs prev pos).1 (permute_devs g ndevs prev pos).2 hlen
      have hunf : gen_rows g ndevs prev pos (k + 1) =
          ((permute_devs g ndevs prev pos).1 ::
            (gen_rows g ndevs (permute_devs g ndevs prev pos).1
              (permute_devs g ndevs prev pos).2 k).1,
           (gen_rows g ndevs (permute_devs g ndevs prev pos).1
              (permute_devs g ndevs prev pos).2 k).2) := rfl
      refine ⟨?_, ?_, ?_⟩
      · rw [hunf]
        simpa using ihlen
      · intro r hr
        rw [hunf] at hr
        rcases List.mem_cons.mp hr with h1 | h1
        · rw [h1]
          exact hperm
        · exact (ihperm r h1).trans hperm
      · intro j hj
        rw [hunf]
        match j with
        | 0 => exact ⟨pos, rfl⟩
        | j + 1 =>
            obtain ⟨p, hp⟩ := ihchain j (by omega)
            exact ⟨p, hp⟩

/-- C1: in a freshly constructed map every row is a permutation of
0 .. ndevs - 1: row 0 is the identity permutation over the devices, every
later row is produced from its predecessor by permute_devs at some stream
position, and consequently the multiset of slots of every row equals the
device set. -/
theorem new_map_rows_spec (g : ℕ → ℤ) (ndevs ngroups nspares nrows pos : ℕ) :
    (∀ row ∈ ((new_map g ndevs ngroups nspares nrows pos).1).rows,
      row.Perm (List.range ndevs)) ∧
    (0 < nrows →
      ((new_map g ndevs ngroups nspares nrows pos).1).rows.getD 0 [] = List.range ndevs) ∧
    (∀ i, 0 < i → i < nrows → ∃ p,
      ((new_map g ndevs ngroups nspares nrows pos).1).rows.getD i [] =
        (permute_devs g ndevs
          (((new_map g ndevs ngroups nspares nrows pos).1).rows.getD (i - 1) []) p).1) := by
  have hrows : ((new_map g ndevs ngroups nspares nrows pos).1).rows
      = (new_rows g ndevs nrows pos).1 := rfl
  by_cases h0 : nrows = 0
  · subst h0
    refine ⟨?_, ?_, ?_⟩
    · intro row hrow
      rw [hrows] at hrow
      simp [new_rows] at hrow
    · intro h
      omega
    · intro i _ hi
      omega
  · have hr2 : (new_rows g ndevs nrows pos).1
        = List.range ndevs :: (gen_rows g ndevs (List.range ndevs) pos (nrows - 1)).1 := by
      rw [new_rows, if_neg h0]
    obtain ⟨hlen, hperm, hchain⟩ :=
      gen_rows_spec g ndevs (nrows - 1) (List.range ndevs) pos (List.length_range ndevs)
    refine ⟨?_, ?_, ?_⟩
    · intro row hrow
      rw [hrows, hr2] at hrow
      rcases List.mem_cons.mp hrow with h1 | h1
      · rw [h1]
      · exact hperm row h1
    · intro _
      rw [hrows, hr2]
      rfl
    · intro i hi0 hi
      rw [hrows, hr2]
      match i, hi0 with
      | i + 1, _ =>
          obtain ⟨p, hp⟩ := hchain i (by omega)
          exact ⟨p, hp⟩

/-- Witness for C1 at a concrete construction with three devices and two
rows. -/
theorem new_map_rows_spec_witness :
    (∀ row ∈ ((new_map g0 3 1 0 2 0).1).rows, row.Perm (List.range 3)) ∧
    ((new_map g0 3 1 0 2 0).1).rows.getD 0 [] = List.range 3 ∧
    ∃ p, ((new_map g0 3 1 0 2 0).1).rows.getD 1 [] =
        (permute_devs g0 3 (((new_map g0 3 1 0 2 0).1).rows.getD 0 []) p).1 :=
  ⟨(new_map_rows_spec g0 3 1 0 2 0).1,
   (new_map_rows_spec g0 3 1 0 2 0).2.1 (by omega),
   (new_map_rows_spec g0 3 1 0 2 0).2.2 1 (by omega) (by omega)⟩

/-! Indexing helper lemmas for the developed map. -/

/-- Helper: length of the flattening of a list of equal length blocks. -/
theorem length_flatten_uniform {α : Type} (mlen : ℕ) :
    ∀ L : List (List α), (∀ l ∈ L, l.length = mlen) → L.flatten.length = L.length * mlen
  | [], _ => by simp
  | l :: L, h => by
      have ih := length_flatten_uniform mlen L (fun x hx => h x (List.mem_cons_of_mem l hx))
      have hl : l.length = mlen := h l (List.mem_cons_self l L)
      simp [ih, hl]
      ring

/-- Helper: indexing into the flattening of a list of equal length blocks
decomposes into a block index and an offset. -/
theorem getD_flatten_uniform {α : Type} (d : α) (mlen : ℕ) :
    ∀ L : List (List α), (∀ l ∈ L, l.length = mlen) →
      ∀ b a, b < L.length → a < mlen →
        L.flatten.getD (b * mlen + a) d = (L.getD b []).getD a d
  | [], _, b, _, hb, _ => absurd hb (by simp)
  | l :: L, hL, 0, a, _, ha => by
      have hl : l.length = mlen := hL l (List.mem_cons_self l L)
      have ha2 : a < l.length := by omega
      simpa using List.getD_append l L.flatten d a ha2
  | l :: L, hL, b + 1, a, hb, ha => by
      have hl : l.length = mlen := hL l (List.mem_cons_self l L)
      have hge : l.length ≤ (b + 1) * mlen + a := by
        have : mlen ≤ (b + 1) * mlen + a := by
          have h1 : mlen ≤ (b + 1) * mlen := Nat.le_mul_of_pos_left mlen (by omega)
          omega
        omega
      have ih := getD_flatten_uniform d mlen L
        (fun x hx => hL x (List.mem_cons_of_mem l hx)) b a (by simpa using hb) ha
      have hidx : (b + 1) * mlen + a - l.length = b * mlen + a := by
        rw [hl]
        ring_nf
        omega
      calc ((l :: L).flatten).getD ((b + 1) * mlen + a) d
          = (l ++ L.flatten).getD ((b + 1) * mlen + a) d := rfl
        _ = L.flatten.getD ((b + 1) * mlen + a - l.length) d :=
            List.getD_append_right l L.flatten d _ hge
        _ = L.flatten.getD (b * mlen + a) d := by rw [hidx]
        _ = (L.getD b []).getD a d := ih
        _ = ((l :: L).getD (b + 1) []).getD a d := rfl

/-- Helper: indexing a mapped range below its bound evaluates the map. -/
theorem getD_map_range {α : Type} (d : α) (f : ℕ → α) (n r : ℕ) (h : r < n) :
    ((List.range n).map f).getD r d = f r := by
  rw [List.getD_eq_getElem _ _ (by simpa using h)]
  simp

/-- C4: develop_map produces a map with nrows * ndevs rows in which the row
for base row r and shift s holds, at slot j, the value
(base row r slot j + s) mod ndevs. -/
theorem develop_map_spec (g : ℕ → ℤ) (bmap : map_t) (pos : ℕ) :
    ((develop_map g bmap pos).1).nrows = bmap.nrows * bmap.ndevs ∧
    ((develop_map g bmap pos).1).rows.length = bmap.nrows * bmap.ndevs ∧
    (∀ r s j, r < bmap.nrows → s < bmap.ndevs → j < bmap.ndevs →
      (((develop_map g bmap pos).1).rows.getD (r * bmap.ndevs + s) []).getD j 0 =
        ((bmap.rows.getD r []).getD j 0 + s) % bmap.ndevs) := by
  have hrows : ((develop_map g bmap pos).1).rows =
      ((List.range bmap.nrows).map (fun base =>
        (List.range bmap.ndevs).map (fun add =>
          (List.range bmap.ndevs).map (fun j =>
            ((bmap.rows.getD base []).getD j 0 + add) % bmap.ndevs)))).flatten := rfl
  have huni : ∀ l ∈ (List.range bmap.nrows).map (fun base =>
      (List.range bmap.ndevs).map (fun add =>
        (List.range bmap.ndevs).map (fun j =>
          ((bmap.rows.getD base []).getD j 0 + add) % bmap.ndevs))),
      l.length = bmap.ndevs := by
    intro l hl
    obtain ⟨base, _, rfl⟩ := List.mem_map.mp hl
    simp
  refine ⟨rfl, ?_, ?_⟩
  · rw [hrows, length_flatten_uniform bmap.ndevs _ huni]
    simp
  · intro r s j hr hs hj
    rw [hrows, getD_flatten_uniform [] bmap.ndevs _ huni r s (by simpa using hr) hs,
      getD_map_range _ _ _ _ hr, getD_map_range _ _ _ _ hs, getD_map_range _ _ _ _ hj]

/-- Witness for C4 at the concrete base map b0, base row 0, shift 1,
slot 2. -/
theorem develop_map_spec_witness :
    (((develop_map g0 b0 0).1).rows.getD (0 * b0.ndevs + 1) []).getD 2 0 =
      ((b0.rows.getD 0 []).getD 2 0 + 1) % b0.ndevs :=
  (develop_map_spec g0 b0 0).2.2 0 1 2 (by decide) (by decide) (by decide)

/-- Counterexample for C5: develop_map does draw from the pseudo random
stream.  On the concrete three device base map the stream position after
develop_map is 6, not the starting position 0: the fresh map built inside
develop_map generates its rows with permute_devs, which draws three tags
for each of two derived rows before every row is overwritten. -/
theorem develop_map_moves_rng : (develop_map g0 b0 0).2 ≠ 0 := by decide

/-- C5 amended: the map returned by develop_map is a deterministic function
of the base map alone (the random draws consumed while new_map builds the
fresh row table never reach the result, because every row entry is
overwritten), but develop_map does consult the generator: the stream
position it returns is the position after the inner new_map call, which
exceeds the starting position whenever ndevs differs from 2 and the
developed map has at least two rows. -/
theorem develop_map_deterministic (bmap : map_t) (g1 g2 : ℕ → ℤ) (p1 p2 : ℕ) :
    (develop_map g1 bmap p1).1 = (develop_map g2 bmap p2).1 ∧
    (develop_map g1 bmap p1).2 =
      (new_map g1 bmap.ndevs bmap.ngroups bmap.nspares (bmap.nrows * bmap.ndevs) p1).2 :=
  ⟨rfl, rfl⟩


/-! Closed forms of the eval_decluster failure loops. -/

/-- Helper: closed form of the inner f2 loop.  With c iterations remaining
(c at most ndevs) and every remaining evaluation succeeding with the value
I f2, the loop accumulates the sums, squares and maximum over the interval
of remaining f2 values and leaves ndevs - 1 in broken slot 1 when it ran
at all. -/
theorem decluster_inner_closed (m : map_t) (faults : ℕ) (I : ℕ → ℕ) :
    ∀ c : ℕ, c ≤ m.ndevs →
      ∀ (br : List ℕ) (sum sumsq mx it : ℕ),
      (∀ f2, m.ndevs - c ≤ f2 → f2 < m.ndevs →
        resilver_at m faults (br.set 1 f2) = .ok (I f2)) →
      decluster_inner m faults c (br, sum, sumsq, mx, it) =
        .ok ((if c = 0 then br else br.set 1 (m.ndevs - 1)),
          sum + (Finset.Ico (m.ndevs - c) m.ndevs).sum (fun f => I f),
          sumsq + (Finset.Ico (m.ndevs - c) m.ndevs).sum (fun f => I f * I f),
          max mx ((Finset.Ico (m.ndevs - c) m.ndevs).sup (fun f => I f)),
          it + c) := by
  intro c
  induction c with
  | zero =>
      intro _ br sum sumsq mx it _
      simp [decluster_inner]
  | succ c ih =>
      intro hc br sum sumsq mx it h
      have hev : resilver_at m faults (br.set 1 (m.ndevs - (c + 1))) =
          .ok (I (m.ndevs - (c + 1))) :=
        h _ le_rfl (by omega)
      have hstep : decluster_inner m faults (c + 1) (br, sum, sumsq, mx, it) =
          decluster_inner m faults c
            (br.set 1 (m.ndevs - (c + 1)),
             sum + I (m.ndevs - (c + 1)),
             sumsq + I (m.ndevs - (c + 1)) * I (m.ndevs - (c + 1)),
             max mx (I (m.ndevs - (c + 1))),
             it + 1) := by
        simp only [decluster_inner, hev]
      rw [hstep, ih (by omega) _ _ _ _ _ ?hyp]
      case hyp =>
        intro f2 hf2a hf2b
        rw [List.set_set]
        exact h f2 (by omega) hf2b
      have hne : c + 1 ≠ 0 := by omega
      have hlt : m.ndevs - (c + 1) < m.ndevs := by omega
      have hplus : m.ndevs - (c + 1) + 1 = m.ndevs - c := by omega
      have hins : Finset.Ico (m.ndevs - (c + 1)) m.ndevs =
          insert (m.ndevs - (c + 1)) (Finset.Ico (m.ndevs - c) m.ndevs) := by
        rw [← hplus]
        exact (Nat.Ico_insert_succ_left hlt).symm
      have hnotmem : m.ndevs - (c + 1) ∉ Finset.Ico (m.ndevs - c) m.ndevs := by
        simp only [Finset.mem_Ico]
        omega
      have eBR : (if c = 0 then br.set 1 (m.ndevs - (c + 1))
            else (br.set 1 (m.ndevs - (c + 1))).set 1 (m.ndevs - 1)) =
          (if c + 1 = 0 then br else br.set 1 (m.ndevs - 1)) := by
        rw [if_neg hne]
        by_cases hc0 : c = 0
        · rw [if_pos hc0, hc0]
        · rw [if_neg hc0, List.set_set]
      have eS : sum + I (m.ndevs - (c + 1)) +
            (Finset.Ico (m.ndevs - c) m.ndevs).sum (fun f => I f) =
          sum + (Finset.Ico (m.ndevs - (c + 1)) m.ndevs).sum (fun f => I f) := by
        rw [hins, Finset.sum_insert hnotmem]
        omega
      have eQ : sumsq + I (m.ndevs - (c + 1)) * I (m.ndevs - (c + 1)) +
            (Finset.Ico (m.ndevs - c) m.ndevs).sum (fun f => I f * I f) =
          sumsq + (Finset.Ico (m.ndevs - (c + 1)) m.ndevs).sum (fun f => I f * I f) := by
        rw [hins, Finset.sum_insert hnotmem]
        omega
      have eM : max (max mx (I (m.ndevs - (c + 1))))
            ((Finset.Ico (m.ndevs - c) m.ndevs).sup (fun f => I f)) =
          max mx ((Finset.Ico (m.ndevs - (c + 1)) m.ndevs).sup (fun f => I f)) := by
        rw [hins, Finset.sup_insert, sup_eq_max]
        omega
      have eT : it + 1 + c = it + (c + 1) := by omega
      rw [eBR, eS, eQ, eM, eT]

/-- Helper: closed form of the outer f1 loop for the single failure mode:
after n iterations the accumulators hold the sum, square sum and maximum
of the first n evaluations and the iteration count is n. -/
theorem decluster_outer_single (m : map_t) (faults : ℕ) (I : ℕ → ℕ) (hf : faults < 2) :
    ∀ n : ℕ,
      (∀ f, f < n → resilver_at m faults (m.broken.set 0 f) = .ok (I f)) →
      decluster_outer m faults n =
        .ok ((if n = 0 then m.broken else m.broken.set 0 (n - 1)),
          (Finset.range n).sum (fun f => I f),
          (Finset.range n).sum (fun f => I f * I f),
          (Finset.range n).sup (fun f => I f), n) := by
  intro n
  induction n with
  | zero =>
      intro _
      simp [decluster_outer]
  | succ n ih =>
      intro h
      have hbr : (if n = 0 then m.broken else m.broken.set 0 (n - 1)).set 0 n =
          m.broken.set 0 n := by
        by_cases h0 : n = 0
        · rw [if_pos h0]
        · rw [if_neg h0, List.set_set]
      have hstep : decluster_outer m faults (n + 1) =
          .ok (m.broken.set 0 n,
            (Finset.range n).sum (fun f => I f) + I n,
            (Finset.range n).sum (fun f => I f * I f) + I n * I n,
            max ((Finset.range n).sup (fun f => I f)) (I n),
            n + 1) := by
        simp only [decluster_outer, ih (fun f hf2 => h f (by omega)), hbr, hf, if_true,
          h n (by omega)]
      rw [hstep]
      have eBR : (m.broken.set 0 n : List ℕ) =
          (if n + 1 = 0 then m.broken else m.broken.set 0 (n + 1 - 1)) := by
        simp
      have eS : (Finset.range n).sum (fun f => I f) + I n =
          (Finset.range (n + 1)).sum (fun f => I f) :=
        (Finset.sum_range_succ (fun f => I f) n).symm
      have eQ : (Finset.range n).sum (fun f => I f * I f) + I n * I n =
          (Finset.range (n + 1)).sum (fun f => I f * I f) :=
        (Finset.sum_range_succ (fun f => I f * I f) n).symm
      have eM : max ((Finset.range n).sup (fun f => I f)) (I n) =
          (Finset.range (n + 1)).sup (fun f => I f) := by
        rw [Finset.range_succ, Finset.sup_insert, sup_eq_max]
        omega
      rw [eS, eQ, eM]
      rw [eBR]

/-- Helper: closed form of the outer f1 loop for the pair failure mode:
after n iterations the accumulators hold the double sums, squares and
maximum over all pairs f1 < f2 with f1 below n, and the iteration count is
the number of such pairs; the final broken array differs from the starting
one only in slots 0 and 1. -/
theorem decluster_outer_pairs (m : map_t) (faults : ℕ) (I : ℕ → ℕ → ℕ) (hf : ¬ faults < 2) :
    ∀ n : ℕ, n ≤ m.ndevs →
      (∀ f1 f2, f1 < n → f1 < f2 → f2 < m.ndevs →
        resilver_at m faults ((m.broken.set 0 f1).set 1 f2) = .ok (I f1 f2)) →
      ∃ br, (decluster_outer m faults n =
          .ok (br,
            (Finset.range n).sum (fun f1 => (Finset.Ico (f1 + 1) m.ndevs).sum
              (fun f2 => I f1 f2)),
            (Finset.range n).sum (fun f1 => (Finset.Ico (f1 + 1) m.ndevs).sum
              (fun f2 => I f1 f2 * I f1 f2)),
            (Finset.range n).sup (fun f1 => (Finset.Ico (f1 + 1) m.ndevs).sup
              (fun f2 => I f1 f2)),
            (Finset.range n).sum (fun f1 => m.ndevs - (f1 + 1)))) ∧
        ∀ x y, (br.set 0 x).set 1 y = (m.broken.set 0 x).set 1 y := by
  intro n
  induction n with
  | zero =>
      intro _ _
      exact ⟨m.broken, by simp [decluster_outer], fun x y => rfl⟩
  | succ n ih =>
      intro hn h
      obtain ⟨br, hbr, hinv⟩ := ih (by omega) (fun f1 f2 h1 h2 h3 => h f1 f2 (by omega) h2 h3)
      have hyp2 : ∀ f2, m.ndevs - (m.ndevs - (n + 1)) ≤ f2 → f2 < m.ndevs →
          resilver_at m faults ((br.set 0 n).set 1 f2) = .ok (I n f2) := by
        intro f2 ha hb
        rw [hinv]
        exact h n f2 (by omega) (by omega) hb
      have hstep : decluster_outer m faults (n + 1) =
          decluster_inner m faults (m.ndevs - (n + 1))
            (br.set 0 n,
             (Finset.range n).sum (fun f1 => (Finset.Ico (f1 + 1) m.ndevs).sum
               (fun f2 => I f1 f2)),
             (Finset.range n).sum (fun f1 => (Finset.Ico (f1 + 1) m.ndevs).sum
               (fun f2 => I f1 f2 * I f1 f2)),
             (Finset.range n).sup (fun f1 => (Finset.Ico (f1 + 1) m.ndevs).sup
               (fun f2 => I f1 f2)),
             (Finset.range n).sum (fun f1 => m.ndevs - (f1 + 1))) := by
        simp only [decluster_outer, hbr, hf, if_false]
      have hnn : m.ndevs - (m.ndevs - (n + 1)) = n + 1 := by omega
      rw [hstep,
        decluster_inner_closed m faults (I n) (m.ndevs - (n + 1)) (by omega) _ _ _ _ _ hyp2,
        hnn]
      refine ⟨if m.ndevs - (n + 1) = 0 then br.set 0 n
        else (br.set 0 n).set 1 (m.ndevs - 1), ?_, ?_⟩
      · have eS : (Finset.range n).sum (fun f1 => (Finset.Ico (f1 + 1) m.ndevs).sum
              (fun f2 => I f1 f2)) +
              (Finset.Ico (n + 1) m.ndevs).sum (fun f2 => I n f2) =
            (Finset.range (n + 1)).sum (fun f1 => (Finset.Ico (f1 + 1) m.ndevs).sum
              (fun f2 => I f1 f2)) :=
          (Finset.sum_range_succ _ n).symm
        have eQ : (Finset.range n).sum (fun f1 => (Finset.Ico (f1 + 1) m.ndevs).sum
              (fun f2 => I f1 f2 * I f1 f2)) +
              (Finset.Ico (n + 1) m.ndevs).sum (fun f2 => I n f2 * I n f2) =
            (Finset.range (n + 1)).sum (fun f1 => (Finset.Ico (f1 + 1) m.ndevs).sum
              (fun f2 => I f1 f2 * I f1 f2)) :=
          (Finset.sum_range_succ _ n).symm
        have eM : max ((Finset.range n).sup (fun f1 => (Finset.Ico (f1 + 1) m.ndevs).sup
              (fun f2 => I f1 f2)))
              ((Finset.Ico (n + 1) m.ndevs).sup (fun f2 => I n f2)) =
            (Finset.range (n + 1)).sup (fun f1 => (Finset.Ico (f1 + 1) m.ndevs).sup
              (fun f2 => I f1 f2)) := by
          rw [Finset.range_succ, Finset.sup_insert, sup_eq_max]
          omega
        have eT : (Finset.range n).sum (fun f1 => m.ndevs - (f1 + 1)) +
              (m.ndevs - (n + 1)) =
            (Finset.range (n + 1)).sum (fun f1 => m.ndevs - (f1 + 1)) :=
          (Finset.sum_range_succ _ n).symm
        rw [eS, eQ, eM, eT]
      · intro x y
        by_cases hc0 : m.ndevs - (n + 1) = 0
        · rw [if_pos hc0, List.set_set]
          exact hinv x y
        · rw [if_neg hc0, List.set_comm _ _ _ (by omega : (1 : ℕ) ≠ 0), List.set_set,
            List.set_set]
          exact hinv x y

/-- Helper: the iteration count of the pair mode is the number of
unordered pairs. -/
theorem sum_range_sub_succ (n : ℕ) :
    (Finset.range n).sum (fun f => n - (f + 1)) = n * (n - 1) / 2 := by
  have h1 : (Finset.range n).sum (fun f => n - (f + 1)) =
      (Finset.range n).sum (fun f => n - 1 - f) :=
    Finset.sum_congr rfl (fun f _ => by omega)
  have h2 : (Finset.range n).sum (fun f => n - 1 - f) = (Finset.range n).sum (fun f => f) :=
    Finset.sum_range_reflect (fun i => i) n
  rw [h1, h2]
  exact Finset.sum_range_id n

/-- Helper: the value selection of eval_decluster once the failure loops
have produced their statistics. -/
theorem eval_decluster_of_core (m : map_t) (how faults : ℕ) (m1 : map_t) (s sq mx it : ℕ)
    (h : eval_decluster_core m faults = .ok (m1, s, sq, mx, it)) :
    eval_decluster m how faults =
      (if how = 0 then .ok (m1, (mx : ℝ) / (m.nrows : ℝ) * (m.ngroups : ℝ))
       else if how = 1 then
         .ok (m1, ((s : ℝ) / (it : ℝ)) / (m.nrows : ℝ) * (m.ngroups : ℝ))
       else if how = 2 then
         .ok (m1, Real.sqrt ((sq : ℝ) / (it : ℝ)) / (m.nrows : ℝ) * (m.ngroups : ℝ))
       else .error .badHow) := by
  simp only [eval_decluster, h]

/-- C6: with how one of WORST, MEAN, RMS and every injected failure
evaluating successfully, eval_decluster runs ndevs iterations for a single
fault and ndevs (ndevs - 1) / 2 iterations for a fault pair, accumulates
each eval_resilver result into the sum, the sum of squares and the
maximum, selects max_ios for WORST, sum / N for MEAN and the square root
of sumsq / N for RMS, and returns (value / nrows) * ngroups. -/
theorem eval_decluster_spec (m : map_t) (how : ℕ) (I1 : ℕ → ℕ) (I2 : ℕ → ℕ → ℕ)
    (hhow : how ≤ 2) :
    ((∀ f, f < m.ndevs → resilver_at m 1 (m.broken.set 0 f) = .ok (I1 f)) →
      ∃ m1, eval_decluster_core m 1 =
          .ok (m1, (Finset.range m.ndevs).sum (fun f => I1 f),
            (Finset.range m.ndevs).sum (fun f => I1 f * I1 f),
            (Finset.range m.ndevs).sup (fun f => I1 f), m.ndevs) ∧
        eval_decluster m how 1 =
          .ok (m1,
            if how = 0 then
              (((Finset.range m.ndevs).sup (fun f => I1 f) : ℕ) : ℝ) / (m.nrows : ℝ) *
                (m.ngroups : ℝ)
            else if how = 1 then
              ((((Finset.range m.ndevs).sum (fun f => I1 f) : ℕ) : ℝ) / (m.ndevs : ℝ)) /
                (m.nrows : ℝ) * (m.ngroups : ℝ)
            else
              Real.sqrt ((((Finset.range m.ndevs).sum (fun f => I1 f * I1 f) : ℕ) : ℝ) /
                  (m.ndevs : ℝ)) / (m.nrows : ℝ) * (m.ngroups : ℝ))) ∧
    ((∀ f1 f2, f1 < f2 → f2 < m.ndevs →
        resilver_at m 2 ((m.broken.set 0 f1).set 1 f2) = .ok (I2 f1 f2)) →
      ∃ m1, eval_decluster_core m 2 =
          .ok (m1,
            (Finset.range m.ndevs).sum (fun f1 => (Finset.Ico (f1 + 1) m.ndevs).sum
              (fun f2 => I2 f1 f2)),
            (Finset.range m.ndevs).sum (fun f1 => (Finset.Ico (f1 + 1) m.ndevs).sum
              (fun f2 => I2 f1 f2 * I2 f1 f2)),
            (Finset.range m.ndevs).sup (fun f1 => (Finset.Ico (f1 + 1) m.ndevs).sup
              (fun f2 => I2 f1 f2)),
            m.ndevs * (m.ndevs - 1) / 2) ∧
        eval_decluster m how 2 =
          .ok (m1,
            if how = 0 then
              (((Finset.range m.ndevs).sup (fun f1 => (Finset.Ico (f1 + 1) m.ndevs).sup
                (fun f2 => I2 f1 f2)) : ℕ) : ℝ) / (m.nrows : ℝ) * (m.ngroups : ℝ)
            else if how = 1 then
              ((((Finset.range m.ndevs).sum (fun f1 => (Finset.Ico (f1 + 1) m.ndevs).sum
                  (fun f2 => I2 f1 f2)) : ℕ) : ℝ) /
                ((m.ndevs * (m.ndevs - 1) / 2 : ℕ) : ℝ)) / (m.nrows : ℝ) * (m.ngroups : ℝ)
            else
              Real.sqrt ((((Finset.range m.ndevs).sum
                    (fun f1 => (Finset.Ico (f1 + 1) m.ndevs).sum
                      (fun f2 => I2 f1 f2 * I2 f1 f2)) : ℕ) : ℝ) /
                  ((m.ndevs * (m.ndevs - 1) / 2 : ℕ) : ℝ)) / (m.nrows : ℝ) *
                (m.ngroups : ℝ))) := by
  constructor
  · intro h1
    have houter := decluster_outer_single m 1 I1 (by omega) m.ndevs h1
    have hcore : eval_decluster_core m 1 =
        .ok ({ m with
            nbroken := 0,
            broken := if m.ndevs = 0 then m.broken else m.broken.set 0 (m.ndevs - 1) },
          (Finset.range m.ndevs).sum (fun f => I1 f),
          (Finset.range m.ndevs).sum (fun f => I1 f * I1 f),
          (Finset.range m.ndevs).sup (fun f => I1 f), m.ndevs) := by
      simp only [eval_decluster_core, houter]
    refine ⟨_, hcore, ?_⟩
    obtain rfl | rfl | rfl : how = 0 ∨ how = 1 ∨ how = 2 := by omega
    · exact (eval_decluster_of_core m 0 1 _ _ _ _ _ hcore).trans rfl
    · exact (eval_decluster_of_core m 1 1 _ _ _ _ _ hcore).trans rfl
    · exact (eval_decluster_of_core m 2 1 _ _ _ _ _ hcore).trans rfl
  · intro h2
    obtain ⟨br, hbr, hinv⟩ := decluster_outer_pairs m 2 I2 (by omega) m.ndevs le_rfl
      (fun f1 f2 _ hb hc => h2 f1 f2 hb hc)
    rw [sum_range_sub_succ] at hbr
    have hcore : eval_decluster_core m 2 =
        .ok ({ m with nbroken := 0, broken := br },
          (Finset.range m.ndevs).sum (fun f1 => (Finset.Ico (f1 + 1) m.ndevs).sum
            (fun f2 => I2 f1 f2)),
          (Finset.range m.ndevs).sum (fun f1 => (Finset.Ico (f1 + 1) m.ndevs).sum
            (fun f2 => I2 f1 f2 * I2 f1 f2)),
          (Finset.range m.ndevs).sup (fun f1 => (Finset.Ico (f1 + 1) m.ndevs).sup
            (fun f2 => I2 f1 f2)),
          m.ndevs * (m.ndevs - 1) / 2) := by
      simp only [eval_decluster_core, hbr]
    refine ⟨_, hcore, ?_⟩
    obtain rfl | rfl | rfl : how = 0 ∨ how = 1 ∨ how = 2 := by omega
    · exact (eval_decluster_of_core m 0 2 _ _ _ _ _ hcore).trans rfl
    · exact (eval_decluster_of_core m 1 2 _ _ _ _ _ hcore).trans rfl
    · exact (eval_decluster_of_core m 2 2 _ _ _ _ _ hcore).trans rfl

/-- Witness for C6 at the concrete map mw with two devices, selector
WORST and one fault: device 0 breaks with one write, device 1 lands in
the spare slot with no work, so the per failure cost function is
1 - f. -/
theorem eval_decluster_spec_witness :
    ∃ m1, eval_decluster_core mw 1 =
        .ok (m1, (Finset.range mw.ndevs).sum (fun f => 1 - f),
          (Finset.range mw.ndevs).sum (fun f => (1 - f) * (1 - f)),
          (Finset.range mw.ndevs).sup (fun f => 1 - f), mw.ndevs) ∧
      eval_decluster mw 0 1 =
        .ok (m1, (((Finset.range mw.ndevs).sup (fun f => 1 - f) : ℕ) : ℝ) / (mw.nrows : ℝ) *
          (mw.ngroups : ℝ)) :=
  (eval_decluster_spec mw 0 (fun f => 1 - f) (fun _ _ => 0) (by omega)).1
    (by
      intro f hf
      have hf2 : f < 2 := hf
      interval_cases f <;> rfl)

/-- Counterexample for C9: on the concrete map mw with the out of range
selector how = 3, eval_decluster hits the assert(0) in the default branch
of the switch — modelled as the badHow error, the abort of the process —
instead of returning an InvalidArgument error value or a numeric
result. -/
theorem eval_decluster_bad_how_asserts : eval_decluster mw 3 1 = .error .badHow := rfl

/-- C9 amended: when how is none of WORST (0), MEAN (1) and RMS (2), the
evaluation never returns a value: either some eval_resilver run aborts on
exhausted spares first, or the switch default aborts through assert(0);
in the model the result is always an error. -/
theorem eval_decluster_unknown_how (m : map_t) (faults how : ℕ) (h : 2 < how) :
    ∃ e, eval_decluster m how faults = .error e := by
  have h0 : how ≠ 0 := by omega
  have h1 : how ≠ 1 := by omega
  have h2 : how ≠ 2 := by omega
  cases hc : eval_decluster_core m faults with
  | error e => exact ⟨e, by simp [eval_decluster, hc]⟩
  | ok st =>
      obtain ⟨m1, s, sq, mx, it⟩ := st
      exact ⟨.badHow, by simp [eval_decluster, hc, h0, h1, h2]⟩

/-- Witness for the amended C9 at a concrete map and selector. -/
theorem eval_decluster_unknown_how_witness : ∃ e, eval_decluster mw 5 2 = .error e :=
  eval_decluster_unknown_how mw 2 5 (by omega)

/-- Helper: a successful eval_decluster_core returns the input map with
nbroken cleared and only the broken array rewritten. -/
theorem eval_decluster_core_shape (m : map_t) (faults : ℕ) (m2 : map_t) (s sq mx it : ℕ)
    (h : eval_decluster_core m faults = .ok (m2, s, sq, mx, it)) :
    m2.nbroken = 0 ∧ m2.ndevs = m.ndevs ∧ m2.ngroups = m.ngroups ∧ m2.nspares = m.nspares ∧
    m2.nrows = m.nrows ∧ m2.groupsz = m.groupsz ∧ m2.rows = m.rows := by
  cases ho : decluster_outer m faults m.ndevs with
  | error e => simp [eval_decluster_core, ho] at h
  | ok st =>
      obtain ⟨br, s2, sq2, mx2, it2⟩ := st
      simp only [eval_decluster_core, ho] at h
      have hm : ({ m with nbroken := 0, broken := br } : map_t) = m2 :=
        congrArg Prod.fst (Except.ok.inj h)
      rw [← hm]
      exact ⟨rfl, rfl, rfl, rfl, rfl, rfl, rfl⟩

/-- C10: whenever eval_decluster returns, the returned map has nbroken
reset to zero and agrees with the input map on ndevs, ngroups, nspares,
nrows, every groupsz entry and every row (eval_resilver is embedded as a
pure function of the map, mirroring that the C code never stores to the
map; eval_decluster itself only writes broken, nbroken). -/
theorem eval_decluster_frame (m : map_t) (how faults : ℕ) (m1 : map_t) (v : ℝ)
    (h : eval_decluster m how faults = .ok (m1, v)) :
    m1.nbroken = 0 ∧ m1.ndevs = m.ndevs ∧ m1.ngroups = m.ngroups ∧ m1.nspares = m.nspares ∧
    m1.nrows = m.nrows ∧ m1.groupsz = m.groupsz ∧ m1.rows = m.rows := by
  cases hc : eval_decluster_core m faults with
  | error e => simp [eval_decluster, hc] at h
  | ok st =>
      obtain ⟨m2, s, sq, mx, it⟩ := st
      have hshape := eval_decluster_core_shape m faults m2 s sq mx it hc
      simp only [eval_decluster, hc] at h
      split_ifs at h with h0 h1 h2
      · have hm : m2 = m1 := congrArg Prod.fst (Except.ok.inj h)
        rw [← hm]
        exact hshape
      · have hm : m2 = m1 := congrArg Prod.fst (Except.ok.inj h)
        rw [← hm]
        exact hshape
      · have hm : m2 = m1 := congrArg Prod.fst (Except.ok.inj h)
        rw [← hm]
        exact hshape

/-- Witness for C10 at the concrete map mw, selector WORST, one fault. -/
theorem eval_decluster_frame_witness :
    ({ ndevs := 2, ngroups := 1, groupsz := [1], nspares := 1, nrows := 1,
       rows := [[0, 1]], nbroken := 0, broken := [1] } : map_t).nbroken = 0 ∧
    ({ ndevs := 2, ngroups := 1, groupsz := [1], nspares := 1, nrows := 1,
       rows := [[0, 1]], nbroken := 0, broken := [1] } : map_t).ndevs = mw.ndevs ∧
    ({ ndevs := 2, ngroups := 1, groupsz := [1], nspares := 1, nrows := 1,
       rows := [[0, 1]], nbroken := 0, broken := [1] } : map_t).ngroups = mw.ngroups ∧
    ({ ndevs := 2, ngroups := 1, groupsz := [1], nspares := 1, nrows := 1,
       rows := [[0, 1]], nbroken := 0, broken := [1] } : map_t).nspares = mw.nspares ∧
    ({ ndevs := 2, ngroups := 1, groupsz := [1], nspares := 1, nrows := 1,
       rows := [[0, 1]], nbroken := 0, broken := [1] } : map_t).nrows = mw.nrows ∧
    ({ ndevs := 2, ngroups := 1, groupsz := [1], nspares := 1, nrows := 1,
       rows := [[0, 1]], nbroken := 0, broken := [1] } : map_t).groupsz = mw.groupsz ∧
    ({ ndevs := 2, ngroups := 1, groupsz := [1], nspares := 1, nrows := 1,
       rows := [[0, 1]], nbroken := 0, broken := [1] } : map_t).rows = mw.rows :=
  eval_decluster_frame mw 0 1
    { ndevs := 2, ngroups := 1, groupsz := [1], nspares := 1, nrows := 1,
      rows := [[0, 1]], nbroken := 0, broken := [1] }
    (((1 : ℕ) : ℝ) / ((1 : ℕ) : ℝ) * ((1 : ℕ) : ℝ)) rfl

/-- C3 (code evidence): on the concrete one row map m3, where the two
broken devices 0 and 1 fall into the two distinct size one groups of the
same row, the spare slot cursor restarts at ndevs - nspares for each
failed group, so both repairs write to the same healthy spare device 2:
the write tally is two writes on device 2 and none elsewhere, and
eval_resilver reports max_ios = 2.  Under the claimed once per row cursor
each broken slot would go to a distinct spare and every per device write
count in this row would be at most one. -/
theorem resilver_cursor_per_group :
    resilver_counts m3 = .ok ([0, 0, 0, 0], [0, 0, 2, 0]) ∧ eval_resilver m3 = .ok 2 :=
  ⟨rfl, rfl⟩
